import Mathlib

/-!
Verification of the discard-extent ledger and benchmarking driver of
`test-discard.c` against its specification.

The C program tracks already-discarded ranges in an rbtree of
`struct discarded_entry { start; count; }` keyed by `start`
(`libs/rbtree.h` is the stock intrusive red-black tree and is not part of
the sources here).  We embed the tree by its in-order contents: a list of
entries in ascending `start` order.  The binary search of
`guess_next_block` descends left when `block < entry->start`, right when
`block > entry->start + entry->count`, and otherwise stops at the (unique,
given the disjointness invariant) matching entry; on the ordered-list
embedding this is the equivalent left-to-right scan below.

Times measured with `gettimeofday` are C doubles; they are embedded as
exact rationals (`ℚ`), so double rounding error is not modelled.
-/

/-- One node of the discarded tree: `struct discarded_entry` of
`test-discard.c` (`start` and `count` are in record-size units). -/
structure DiscardedEntry where
  start : Nat
  count : Nat
deriving Repr, DecidableEq

/-- Strict-gap relation between two extents: the left one ends strictly
before the right one starts (non-overlapping and non-adjacent).  This is
the relation checked by `prepare_by_tree` on consecutive entries. -/
def entGap (e f : DiscardedEntry) : Prop := e.start + e.count < f.start

instance (e f : DiscardedEntry) : Decidable (entGap e f) :=
  inferInstanceAs (Decidable (e.start + e.count < f.start))

instance : IsTrans DiscardedEntry entGap :=
  ⟨fun a b c hab hbc => by unfold entGap at hab hbc ⊢; omega⟩

/-- Ledger well-formedness: consecutive in-order extents satisfy the
strict gap relation. -/
def Wf (l : List DiscardedEntry) : Prop := l.Chain' entGap

def wfDec : (l : List DiscardedEntry) → Decidable (Wf l)
  | [] => .isTrue List.chain'_nil
  | [e] => .isTrue (List.chain'_singleton e)
  | e :: f :: rest =>
    letI : Decidable (Wf (f :: rest)) := wfDec (f :: rest)
    decidable_of_iff (entGap e f ∧ Wf (f :: rest)) List.chain'_cons.symm

instance (l : List DiscardedEntry) : Decidable (Wf l) := wfDec l

/-- Record units covered by one extent, as a finite set. -/
def extentF (e : DiscardedEntry) : Finset Nat :=
  Finset.Ico e.start (e.start + e.count)

/-- Record units covered by the whole ledger. -/
def coveredF : List DiscardedEntry → Finset Nat
  | [] => ∅
  | e :: rest => extentF e ∪ coveredF rest

/-- Sum of the `count` fields over the ledger. -/
def totalCount (l : List DiscardedEntry) : Nat :=
  (l.map DiscardedEntry.count).sum

/-- RAND_MAX of glibc. -/
def RAND_MAX : Nat := 2147483647

/-- Embedding of `get_random_block`: `max = dev_size / record_size`,
clamped to `RAND_MAX`, and the draw `r` (the value of `random()`) is
reduced mod `max`. -/
def getRandomBlock (devSize recordSize r : Nat) : Nat :=
  let m := devSize / recordSize
  let m := if RAND_MAX < m then RAND_MAX else m
  r % m

/-- The right-merge step at the end of `guess_next_block`: after inserting
or extending an entry, if its in-order successor starts exactly at the
entry's end, the successor is absorbed (`new_entry->count += entry->count`,
`rb_erase`). -/
def mergeRight (e : DiscardedEntry) : List DiscardedEntry → List DiscardedEntry
  | [] => [e]
  | f :: rest =>
    if f.start = e.start + e.count then ⟨e.start, e.count + f.count⟩ :: rest
    else e :: f :: rest

/-- Outcome of one scan of the tree in `guess_next_block`: either a new
ledger together with the returned block, or the restart case
(`block = 0; n = &discarded_root.rb_node; continue`). -/
inductive ScanResult where
  | ok (ledger : List DiscardedEntry) (block : Nat)
  | restart
deriving Repr, DecidableEq

/-- One scan of `guess_next_block` over the ordered entries, with
`N = defs->dev_size / defs->record_size`:
if `block < entry->start` the search moves left, if
`block > entry->start + entry->count` it moves right, otherwise the entry
matches; a matching entry with `end > N` triggers the restart, and
otherwise the entry is extended by one unit (`entry->count += 1`) and the
previous end is returned.  A miss allocates and inserts the unit extent
at `block`.  Both paths then apply the right-merge. -/
def guessScan (N block : Nat) : List DiscardedEntry → ScanResult
  | [] => .ok [⟨block, 1⟩] block
  | e :: rest =>
    if block < e.start then
      .ok (mergeRight ⟨block, 1⟩ (e :: rest)) block
    else if e.start + e.count < block then
      match guessScan N block rest with
      | .ok rest2 b => .ok (e :: rest2) b
      | .restart => .restart
    else
      if N < e.start + e.count then .restart
      else .ok (mergeRight ⟨e.start, e.count + 1⟩ rest) (e.start + e.count)

/-- Embedding of `guess_next_block` given the drawn block.  The C restart
rescans the whole tree with `block = 0`; if that rescan restarts again the
state repeats and the C loop runs forever, which the embedding reports as
`none` (`none` also stands for the `alloc_and_init` failure path, which
the claims exclude by speaking of successful calls). -/
def guessNextBlock (N block : Nat) (l : List DiscardedEntry) :
    Option (List DiscardedEntry × Nat) :=
  match guessScan N block l with
  | .ok l2 b => some (l2, b)
  | .restart =>
    match guessScan N 0 l with
    | .ok l2 b => some (l2, b)
    | .restart => none

/-- Iterated selector calls on a list of drawn blocks, collecting the
ledger and the returned block of every call. -/
def runSelector (N : Nat) : List Nat → List DiscardedEntry →
    Option (List DiscardedEntry × List Nat)
  | [], l => some (l, [])
  | d :: ds, l =>
    match guessNextBlock N d l with
    | none => none
    | some (l2, b) =>
      match runSelector N ds l2 with
      | none => none
      | some (lf, bs) => some (lf, b :: bs)

/-- Embedding of the sequential discard loop of `run_ioctl` with
`limit = defs->total_size + defs->start`.  Each iteration issues the range
`(next_start, record_size)`; beforehand, if `next_hop ≥ limit` the
iteration is marked as the last (`stop = 1`, with `next_hop` clamped to
`limit`, which only feeds the unused final `next_start`).  The
`recordSize = 0` disjunct is unreachable behind the sanity check of
`run_ioctl` and only makes the recursion well-founded. -/
def seqLoop (recordSize limit nextStart : Nat) : List (Nat × Nat) :=
  if h : recordSize = 0 ∨ limit ≤ nextStart + recordSize then
    [(nextStart, recordSize)]
  else
    (nextStart, recordSize) :: seqLoop recordSize limit (nextStart + recordSize)
termination_by limit - nextStart
decreasing_by omega

/-- Embedding of `run_ioctl` in sequential (non-random) mode: the sanity
check rejects `record_size < 1` and `total_size < record_size`
(returning 1, here `none`); otherwise the loop issues the ranges of
`seqLoop`. -/
def runIoctlSeq (start recordSize totalSize : Nat) : Option (List (Nat × Nat)) :=
  if recordSize < 1 ∨ totalSize < recordSize then none
  else some (seqLoop recordSize (totalSize + start) start)

/-- Sum of the lengths of a list of issued ranges. -/
def sumLens (ranges : List (Nat × Nat)) : Nat :=
  (ranges.map Prod.snd).sum

/-- The statistics record of `test-discard.c` (`struct statistics`), with
the C doubles embedded as exact rationals. -/
structure Statistics where
  min : ℚ
  max : ℚ
  sum : ℚ
  count : Nat
deriving Repr, DecidableEq

/-- Initialization of the statistics in `test_step`:
`min = INT_MAX` (the sentinel), `max = 0`, `sum = 0`, `count = 0`. -/
def initStats : Statistics :=
  { min := 2147483647, max := 0, sum := 0, count := 0 }

/-- Folding one measured latency into the statistics, as in the loop of
`run_ioctl`: `if (time > max) max = time; if (time < min) min = time;
sum += time; count++`. -/
def collectTime (s : Statistics) (t : ℚ) : Statistics :=
  { min := if t < s.min then t else s.min
    max := if s.max < t then t else s.max
    sum := s.sum + t
    count := s.count + 1 }

/-- The seven fields printed by `print_results` (identical in human and
batch form). -/
structure Report where
  record_size : Nat
  total_size : Nat
  min : ℚ
  max : ℚ
  avg : ℚ
  sum : ℚ
  throughput : ℚ
deriving Repr, DecidableEq

/-- Embedding of `print_results`: `avg = sum / count` and
`throughput = (total_size / (1024*1024)) / sum`, where
`total_size / (1024*1024)` is the C unsigned integer division. -/
def printResults (recordSize totalSize : Nat) (stats : Statistics) : Report :=
  { record_size := recordSize
    total_size := totalSize
    min := stats.min
    max := stats.max
    avg := stats.sum / (stats.count : ℚ)
    sum := stats.sum
    throughput := ((totalSize / (1024 * 1024) : Nat) : ℚ) / stats.sum }

/-- Embedding of the reporting part of `test_step`: the function computes
the wall-clock time of the whole step into its local `time` but never
uses it; the emitted report is `print_results(defs, &stats)` and depends
only on the statistics. -/
def testStep (recordSize totalSize : Nat) (stats : Statistics)
    (wallTime : ℚ) : Report :=
  printResults recordSize totalSize stats

/-- The record-size range of `struct records`. -/
structure Records where
  start : Nat
  «end» : Nat
  step : Nat
deriving Repr, DecidableEq

/-- Embedding of the validation in `get_range`, applied to the three
already-parsed numbers (a component equal to 0 stands for the failure
return of the excluded `get_number` parser and makes `get_range` fail):
the range is rejected when `start > end`, `start + step > end` or
`step == 0`. -/
def getRange (s e st : Nat) : Option Records :=
  if s = 0 ∨ e = 0 ∨ st = 0 then none
  else if e < s ∨ e < s + st ∨ st = 0 then none
  else some ⟨s, e, st⟩

/-- Number of sweep iterations in `main` when a record range is given:
`repeat = ((rec.end - rec.start) / rec.step) + 1`. -/
def sweepRepeat (rec : Records) : Nat :=
  (rec.«end» - rec.start) / rec.step + 1

/-- The record sizes used by the sweep loop of `main`, mirroring the loop
`for (i = 1; i <= repeat; i++)`: iteration `i` uses the current
`defs.record_size` (`rs`) and then sets
`defs.record_size = rec.start + rec.step * i`. -/
def sweepSizesFrom (recStart recStep : Nat) : Nat → Nat → Nat → List Nat
  | _, _, 0 => []
  | rs, i, n + 1 => rs :: sweepSizesFrom recStart recStep (recStart + recStep * i) (i + 1) n

/-- Record sizes of the whole sweep: with no range (`rec.step == 0`)
there is a single iteration at the configured record size; with a range,
`defs.record_size = rec.start` and `repeat` iterations run. -/
def sweepRecordSizes (orec : Option Records) (defRecordSize : Nat) : List Nat :=
  match orec with
  | none => [defRecordSize]
  | some rec => sweepSizesFrom rec.start rec.step rec.start 1 (sweepRepeat rec)

/-- Rounding of `total_size` at the top of each sweep iteration:
`(unsigned long long)((total_size / (double)record_size) + 0.5)` times
`record_size`.  With exact (rational) arithmetic the cast computes
`floor(total/record + 1/2)`, which equals `(2*total + record) / (2*record)`
in natural-number division. -/
def roundTotal (totalSize recordSize : Nat) : Nat :=
  ((2 * totalSize + recordSize) / (2 * recordSize)) * recordSize

/-- The per-iteration total size after the boundary check of `main`:
when `start + total_size > dev_size`, the code sets
`total_size = dev_size`. -/
def sweepTotalSize (start totalSize recordSize devSize : Nat) : Nat :=
  if devSize < start + roundTotal totalSize recordSize then devSize
  else roundTotal totalSize recordSize

/-- Size of the entropy buffer (`ENT_SIZE`). -/
def ENT_SIZE : Nat := 4096

/-- Number of `write` calls issued by `write_data` for a requested size:
`total = (int64_t)((size / (double)ENT_SIZE) + 0.5)`, i.e. the chunk
count rounded half-up; with exact arithmetic this is
`(2*size + ENT_SIZE) / (2*ENT_SIZE)` in natural-number division. -/
def writeChunks (size : Nat) : Nat :=
  (2 * size + ENT_SIZE) / (2 * ENT_SIZE)

/-- Bytes put on the device by `write_data` for a requested size: each of
the `writeChunks size` calls writes exactly `ENT_SIZE` bytes. -/
def writeDataBytes (size : Nat) : Nat :=
  writeChunks size * ENT_SIZE

/-- Observable effect of `crit_err`: the tracked tree is freed
(`free_tree`) and the process exits with `EXIT_FAILURE` (1). -/
structure CritResult where
  treeFreed : Bool
  exitCode : Nat
deriving Repr, DecidableEq

/-- The result of `crit_err`. -/
def critErr : CritResult := { treeFreed := true, exitCode := 1 }

/-- The corruption test of `prepare_by_tree` for the current entry
against the previous one:
`prev && (prev->start + prev->count >= entry->start)`. -/
def badPair (prev : Option DiscardedEntry) (e : DiscardedEntry) : Bool :=
  match prev with
  | some p => decide (e.start ≤ p.start + p.count)
  | none => false

/-- The `write_data` request issued for one extent by `prepare_by_tree`:
offset `entry->start * record_size`, size `entry->count * record_size`. -/
def writeOf (rs : Nat) (e : DiscardedEntry) : Nat × Nat :=
  (e.start * rs, e.count * rs)

/-- Embedding of the loop of `prepare_by_tree` over the in-order entries,
carrying `prev`.  For each entry, first `total == 0` and then the
corruption test call `crit_err`; an `.error` result carries the effect of
`crit_err` together with the `write_data` requests issued before the
defect was detected, an `.ok` result the full request list. -/
def prepLoop (rs : Nat) : Option DiscardedEntry → List DiscardedEntry →
    Except (CritResult × List (Nat × Nat)) (List (Nat × Nat))
  | _, [] => .ok []
  | prev, e :: rest =>
    if e.count * rs = 0 then .error (critErr, [])
    else if badPair prev e then .error (critErr, [])
    else
      match prepLoop rs (some e) rest with
      | .ok ws => .ok (writeOf rs e :: ws)
      | .error (c, ws) => .error (c, writeOf rs e :: ws)

/-- Embedding of `prepare_by_tree` (the replay stage): walk the entries
in ascending order starting with `prev = NULL`. -/
def prepareByTree (rs : Nat) (l : List DiscardedEntry) :
    Except (CritResult × List (Nat × Nat)) (List (Nat × Nat)) :=
  prepLoop rs none l

/-- Absence of the conditions `prepare_by_tree` treats as fatal, relative
to a previous entry. -/
def cleanFrom (rs : Nat) : Option DiscardedEntry → List DiscardedEntry → Prop
  | _, [] => True
  | prev, e :: rest =>
      e.count * rs ≠ 0 ∧ badPair prev e = false ∧ cleanFrom rs (some e) rest

def cleanFromDec (rs : Nat) : (prev : Option DiscardedEntry) →
    (l : List DiscardedEntry) → Decidable (cleanFrom rs prev l)
  | _, [] => .isTrue trivial
  | prev, e :: rest =>
    letI : Decidable (cleanFrom rs (some e) rest) := cleanFromDec rs (some e) rest
    inferInstanceAs (Decidable (e.count * rs ≠ 0 ∧ badPair prev e = false ∧
      cleanFrom rs (some e) rest))

instance (rs : Nat) (prev : Option DiscardedEntry) (l : List DiscardedEntry) :
    Decidable (cleanFrom rs prev l) :=
  cleanFromDec rs prev l

/-- Counting is one per folded latency, independent of the values. -/
theorem foldl_collectTime_count (ts : List ℚ) :
    ∀ s : Statistics, (ts.foldl collectTime s).count = s.count + ts.length := by
  induction ts with
  | nil => intro s; simp
  | cons t ts ih =>
    intro s
    simp only [List.foldl_cons, ih, collectTime, List.length_cons]
    omega

/-- C8: every measured latency is folded into the statistics as
`min = min(min, t)`, `max = max(max, t)`, `sum += t`, `count += 1`,
starting from `min = INT_MAX` (a sentinel), `max = 0`, `sum = 0`,
`count = 0`; for the three latencies 0.01, 0.05, 0.03 this yields
`min = 0.01`, `max = 0.05`, `sum = 0.09`, `count = 3`, and the reported
average is 0.03. -/
theorem C8_statistics_folding :
    (∀ (s : Statistics) (t : ℚ), collectTime s t =
      { min := min s.min t, max := max s.max t,
        sum := s.sum + t, count := s.count + 1 }) ∧
    initStats = { min := 2147483647, max := 0, sum := 0, count := 0 } ∧
    [(1 : ℚ)/100, 5/100, 3/100].foldl collectTime initStats =
      { min := 1/100, max := 5/100, sum := 9/100, count := 3 } ∧
    (printResults 4096 10485760
      ([(1 : ℚ)/100, 5/100, 3/100].foldl collectTime initStats)).avg = 3/100 := by
  refine ⟨fun s t => ?_, rfl, ?_, ?_⟩
  · unfold collectTime
    congr 1
    · rw [min_def]; split_ifs <;> linarith
    · rw [max_def]; split_ifs <;> linarith
  · norm_num [List.foldl_cons, collectTime, initStats, List.foldl_nil]
  · norm_num [List.foldl_cons, collectTime, initStats, List.foldl_nil, printResults]

/-- C4 counterexample: at `total_size = 4 MiB` with accumulated discard
time `sum = 2 s` and step wall time 5 s, the reported throughput is
`(4 MiB / 1 MiB) / sum = 2`, not `(4 MiB / 1 MiB) / wall = 4/5` as the
claim (wall-time denominator) requires. -/
theorem C4_throughput_counterexample :
    (testStep 4096 4194304 ⟨1, 1, 2, 2⟩ 5).throughput = 2 ∧
    ¬ ((testStep 4096 4194304 ⟨1, 1, 2, 2⟩ 5).throughput =
        ((4194304 / (1024 * 1024) : Nat) : ℚ) / 5) := by
  constructor
  · norm_num [testStep, printResults]
  · norm_num [testStep, printResults]

/-- C4 amended: the report is `record_size, total_size, min, max,
avg = sum/count, sum, throughput = (total_size/1MiB)/sum`, where the
throughput denominator is `sum`, the accumulated time of the individual
discard calls; the wall time measured in `test_step` is not used, so the
report is independent of it. -/
theorem C4_report_fields (recordSize totalSize : Nat) (stats : Statistics)
    (w w2 : ℚ) :
    testStep recordSize totalSize stats w = testStep recordSize totalSize stats w2 ∧
    testStep recordSize totalSize stats w =
      { record_size := recordSize
        total_size := totalSize
        min := stats.min
        max := stats.max
        avg := stats.sum / (stats.count : ℚ)
        sum := stats.sum
        throughput := ((totalSize / (1024 * 1024) : Nat) : ℚ) / stats.sum } :=
  ⟨rfl, rfl⟩

/-- C5: the sweep sets `total_size = dev_size` when
`start + total_size > dev_size`, so with `start = 512`,
`total_size = 3584`, `record_size = 4096` and `dev_size = 4096` (inputs
that pass `check_sanity`, third conjunct) the rounded total 4096 is
"clamped" to 4096 and `start + total_size = 4608` still exceeds the
device size, contradicting the claimed postcondition for `start > 0`. -/
theorem C5_clamp_exceeds_device :
    sweepTotalSize 512 3584 4096 4096 = 4096 ∧
    4096 < 512 + sweepTotalSize 512 3584 4096 4096 ∧
    512 + 3584 ≤ 4096 := by decide

/-- C2: with `dev_size = record_size = 4096` there is exactly one
addressable block (`N = 1`), and `get_random_block` can only draw block 0
(first conjunct).  Starting from the empty ledger, the first call inserts
extent `{0, 1}` and returns 0; the second call finds the draw inside that
extent, whose right edge is the last addressable block, but since the
code only restarts when `end > N` (not `end ≥ N`), it extends the extent
to `{0, 2}` and returns block 1, which is outside `[0, N) = [0, 1)`
(second and third conjuncts). -/
theorem C2_returns_block_out_of_device :
    getRandomBlock 4096 4096 7 = 0 ∧
    runSelector (4096 / 4096) [0, 0] [] = some ([⟨0, 2⟩], [0, 1]) ∧
    ¬ (1 < 4096 / 4096) := by decide

/-- The record sizes produced by the sweep loop form the arithmetic
progression `recStart + recStep * (i + k)` for `k` below the remaining
iteration count. -/
theorem sweepSizesFrom_eq (a st : Nat) :
    ∀ (n i : Nat), sweepSizesFrom a st (a + st * i) (i + 1) n =
      (List.range n).map (fun k => a + st * (i + k)) := by
  intro n
  induction n with
  | zero => intro i; rfl
  | succ n ih =>
    intro i
    rw [List.range_succ_eq_map]
    simp only [sweepSizesFrom, List.map_cons, List.map_map, Nat.mul_zero]
    refine congrArg₂ _ (by simp) ?_
    rw [ih (i + 1)]
    refine List.map_congr_left fun k _ => ?_
    simp only [Function.comp_apply, Nat.succ_eq_add_one]
    ring_nf

/-- C9: for every valid record-size range, the sweep runs exactly
`(end - start) / step + 1` iterations and iteration `i` (from 0) uses
record size `start + step * i`; for the range 4096:12288:4096 that is
exactly the three record sizes 4096, 8192, 12288, and without a range a
single iteration runs at the configured record size. -/
theorem C9_sweep_plan (s e st d : Nat) (rec : Records)
    (h : getRange s e st = some rec) :
    sweepRecordSizes (some rec) d =
      (List.range ((rec.«end» - rec.start) / rec.step + 1)).map
        (fun i => rec.start + rec.step * i) ∧
    (sweepRecordSizes (some rec) d).length =
      (rec.«end» - rec.start) / rec.step + 1 ∧
    sweepRecordSizes none d = [d] ∧
    sweepRecordSizes (some ⟨4096, 12288, 4096⟩) d = [4096, 8192, 12288] := by
  have hmap : sweepRecordSizes (some rec) d =
      (List.range ((rec.«end» - rec.start) / rec.step + 1)).map
        (fun i => rec.start + rec.step * i) := by
    have h0 := sweepSizesFrom_eq rec.start rec.step (sweepRepeat rec) 0
    simp only [Nat.mul_zero, Nat.add_zero, Nat.zero_add] at h0
    simp only [sweepRecordSizes, sweepRepeat] at h0 ⊢
    exact h0
  refine ⟨hmap, ?_, rfl, ?_⟩
  · rw [hmap, List.length_map, List.length_range]
  · have h3 := sweepSizesFrom_eq 4096 4096 3 0
    simp only [Nat.mul_zero, Nat.add_zero, Nat.zero_add] at h3
    simp only [sweepRecordSizes, sweepRepeat]
    norm_num
    decide

/-- C9 witness at the range 4096:12288:4096 with default record size
4096. -/
theorem C9_sweep_plan_witness :
    sweepRecordSizes (some ⟨4096, 12288, 4096⟩) 4096 =
      (List.range ((12288 - 4096) / 4096 + 1)).map
        (fun i => 4096 + 4096 * i) ∧
    (sweepRecordSizes (some ⟨4096, 12288, 4096⟩) 4096).length =
      (12288 - 4096) / 4096 + 1 ∧
    sweepRecordSizes none 4096 = [4096] ∧
    sweepRecordSizes (some ⟨4096, 12288, 4096⟩) 4096 = [4096, 8192, 12288] :=
  C9_sweep_plan 4096 12288 4096 4096 ⟨4096, 12288, 4096⟩ (by decide)

/-- Ceiling division characterization used for the loop counts of
`run_ioctl`. -/
theorem ceil_div_eq (t r : Nat) (hr : 0 < r) :
    (t + r - 1) / r = t / r + (if t % r = 0 then 0 else 1) := by
  obtain ⟨q, s, hs, rfl⟩ : ∃ q s, s < r ∧ t = r * q + s :=
    ⟨t / r, t % r, Nat.mod_lt t hr, (Nat.div_add_mod t r).symm⟩
  rw [Nat.mul_add_mod, Nat.mod_eq_of_lt hs, Nat.mul_add_div hr,
    Nat.div_eq_of_lt hs, Nat.add_zero]
  rcases Nat.eq_zero_or_pos s with hs0 | hs1
  · subst hs0
    rw [if_pos rfl, Nat.add_zero, Nat.add_zero, Nat.add_sub_assoc hr,
      Nat.mul_add_div hr, Nat.div_eq_of_lt (by omega), Nat.add_zero]
  · rw [if_neg (by omega)]
    have hkey : r * q + s + r - 1 = r * (q + 1) + (s - 1) := by
      have expand : r * (q + 1) = r * q + r := by ring
      rw [expand]
      generalize r * q = p
      omega
    rw [hkey, Nat.mul_add_div hr, Nat.div_eq_of_lt (by omega), Nat.add_zero]

/-- The sequential loop of `run_ioctl` issues the arithmetic progression
of ranges `(nextStart + k * recordSize, recordSize)`, one per iteration,
with exactly `ceil((limit - nextStart) / recordSize)` iterations. -/
theorem seqLoop_eq (r : Nat) (hr : 1 ≤ r) :
    ∀ (m limit s : Nat), limit - s ≤ m → s < limit →
      seqLoop r limit s =
        (List.range ((limit - s + r - 1) / r)).map (fun k => (s + k * r, r)) := by
  intro m
  induction m with
  | zero => intro limit s hm hs; omega
  | succ m ih =>
    intro limit s hm hs
    rw [seqLoop]
    split_ifs with h
    · have hls : limit ≤ s + r := by omega
      have hn : (limit - s + r - 1) / r = 1 := by
        apply Nat.div_eq_of_lt_le <;> omega
      rw [hn]
      simp [List.range_succ]
    · push_neg at h
      obtain ⟨-, hsr⟩ := h
      have hsr' : s + r < limit := by omega
      rw [ih limit (s + r) (by omega) (by omega)]
      have hn : (limit - s + r - 1) / r = (limit - (s + r) + r - 1) / r + 1 := by
        have h1 : limit - (s + r) + r - 1 = limit - s - 1 := by omega
        have h2 : limit - s + r - 1 = (limit - s - 1) + r := by omega
        rw [h1, h2, Nat.add_div_right _ (by omega)]
      rw [hn, List.range_succ_eq_map]
      simp only [List.map_cons, List.map_map, Nat.zero_mul, Nat.add_zero]
      refine congrArg₂ _ rfl ?_
      refine List.map_congr_left fun k _ => ?_
      simp only [Function.comp_apply, Nat.succ_eq_add_one]
      refine congrArg₂ _ ?_ rfl
      ring

/-- C10: for every sequential step with `record_size ≥ 1` and
`total_size ≥ record_size`, the loop of `run_ioctl` terminates after
exactly `ceil(total_size / record_size)` iterations; the issued range
offsets are `start, start + record_size, start + 2·record_size, ...`, in
strictly increasing order, and the statistics count (one fold per
iteration) equals the iteration count. -/
theorem C10_seq_loop_termination (start recordSize totalSize : Nat)
    (h1 : 1 ≤ recordSize) (h2 : recordSize ≤ totalSize) :
    ∃ ranges, runIoctlSeq start recordSize totalSize = some ranges ∧
      ranges = (List.range ((totalSize + recordSize - 1) / recordSize)).map
        (fun k => (start + k * recordSize, recordSize)) ∧
      ranges.length = (totalSize + recordSize - 1) / recordSize ∧
      (ranges.map Prod.fst).Pairwise (· < ·) ∧
      (∀ times : List ℚ, times.length = ranges.length →
        (times.foldl collectTime initStats).count =
          (totalSize + recordSize - 1) / recordSize) := by
  have hrun : runIoctlSeq start recordSize totalSize =
      some (seqLoop recordSize (totalSize + start) start) := by
    rw [runIoctlSeq, if_neg (by omega)]
  have hseq := seqLoop_eq recordSize h1 (totalSize + start) (totalSize + start)
    start (by omega) (by omega)
  have harith : totalSize + start - start + recordSize - 1 =
      totalSize + recordSize - 1 := by omega
  rw [harith] at hseq
  refine ⟨_, hrun, hseq, ?_, ?_, ?_⟩
  · rw [hseq, List.length_map, List.length_range]
  · rw [hseq, List.map_map]
    refine (List.pairwise_lt_range _).map _ fun a b hab => ?_
    simp only [Function.comp_apply]
    have hmul : a * recordSize < b * recordSize :=
      Nat.mul_lt_mul_of_pos_right hab h1
    omega
  · intro times htimes
    rw [foldl_collectTime_count, htimes, hseq, List.length_map,
      List.length_range]
    simp [initStats]

/-- C10 witness at `start = 0`, `record_size = 4`, `total_size = 10`. -/
theorem C10_seq_loop_termination_witness :
    ∃ ranges, runIoctlSeq 0 4 10 = some ranges ∧
      ranges = (List.range ((10 + 4 - 1) / 4)).map (fun k => (0 + k * 4, 4)) ∧
      ranges.length = (10 + 4 - 1) / 4 ∧
      (ranges.map Prod.fst).Pairwise (· < ·) ∧
      (∀ times : List ℚ, times.length = ranges.length →
        (times.foldl collectTime initStats).count = (10 + 4 - 1) / 4) :=
  C10_seq_loop_termination 0 4 10 (by decide) (by decide)

/-- C3 counterexample: for `start = 0`, `record_size = 4`,
`total_size = 10` the sequential loop issues the three ranges
`(0,4), (4,4), (8,4)`: the sum of issued lengths is 12, not 10, and the
final range ends at 12, beyond `start + total_size = 10` — the final
range is not clipped. -/
theorem C3_final_range_not_clipped :
    runIoctlSeq 0 4 10 = some [(0, 4), (4, 4), (8, 4)] ∧
    sumLens [(0, 4), (4, 4), (8, 4)] = 12 ∧
    ¬ (sumLens [(0, 4), (4, 4), (8, 4)] = 10) ∧
    0 + 10 < 8 + 4 := by
  refine ⟨?_, by decide, by decide, by decide⟩
  have h := seqLoop_eq 4 (by decide) 10 10 0 (by decide) (by decide)
  rw [runIoctlSeq, if_neg (by decide), h]
  decide

/-- C3 amended: the loop terminates once the cumulative size reaches
`total_size`, but every issued range — the final one included — has the
full length `record_size`; the sum of the issued lengths is
`ceil(total_size / record_size) · record_size`, which equals `total_size`
exactly when `record_size` divides `total_size` and strictly exceeds it
(no clipping) otherwise. -/
theorem C3_amended_no_clipping (start recordSize totalSize : Nat)
    (h1 : 1 ≤ recordSize) (h2 : recordSize ≤ totalSize) :
    ∃ ranges, runIoctlSeq start recordSize totalSize = some ranges ∧
      (∀ rg ∈ ranges, rg.2 = recordSize) ∧
      sumLens ranges =
        ((totalSize + recordSize - 1) / recordSize) * recordSize ∧
      (totalSize % recordSize = 0 → sumLens ranges = totalSize) ∧
      (totalSize % recordSize ≠ 0 → totalSize < sumLens ranges) := by
  obtain ⟨ranges, hrun, heq, hlen, -, -⟩ :=
    C10_seq_loop_termination start recordSize totalSize h1 h2
  have hsum : sumLens ranges =
      ((totalSize + recordSize - 1) / recordSize) * recordSize := by
    rw [heq]
    unfold sumLens
    rw [List.map_map]
    have hrep : (List.range ((totalSize + recordSize - 1) / recordSize)).map
        (Prod.snd ∘ fun k => (start + k * recordSize, recordSize)) =
        List.replicate ((totalSize + recordSize - 1) / recordSize) recordSize := by
      rw [List.eq_replicate_iff]
      refine ⟨by rw [List.length_map, List.length_range], ?_⟩
      intro b hb
      simp only [List.mem_map, Function.comp_apply] at hb
      obtain ⟨k, -, rfl⟩ := hb
      rfl
    rw [hrep, List.sum_replicate, smul_eq_mul]
  refine ⟨ranges, hrun, ?_, hsum, ?_, ?_⟩
  · intro rg hrg
    rw [heq] at hrg
    simp only [List.mem_map, List.mem_range] at hrg
    obtain ⟨k, -, rfl⟩ := hrg
    rfl
  · intro hmod
    rw [hsum, ceil_div_eq _ _ (by omega), if_pos hmod, Nat.add_zero,
      Nat.div_mul_cancel (Nat.dvd_of_mod_eq_zero hmod)]
  · intro hmod
    rw [hsum, ceil_div_eq _ _ (by omega), if_neg hmod]
    have hdm := Nat.div_add_mod totalSize recordSize
    have hlt : totalSize % recordSize < recordSize := Nat.mod_lt _ (by omega)
    calc totalSize
        = recordSize * (totalSize / recordSize) + totalSize % recordSize :=
          hdm.symm
      _ < recordSize * (totalSize / recordSize) + recordSize :=
          Nat.add_lt_add_left hlt _
      _ = (totalSize / recordSize + 1) * recordSize := by ring

/-- C3 amended witness at `start = 0`, `record_size = 4`,
`total_size = 10`. -/
theorem C3_amended_no_clipping_witness :
    ∃ ranges, runIoctlSeq 0 4 10 = some ranges ∧
      (∀ rg ∈ ranges, rg.2 = 4) ∧
      sumLens ranges = ((10 + 4 - 1) / 4) * 4 ∧
      (10 % 4 = 0 → sumLens ranges = 10) ∧
      (10 % 4 ≠ 0 → 10 < sumLens ranges) :=
  C3_amended_no_clipping 0 4 10 (by decide) (by decide)

/-- On a clean suffix, the replay loop issues exactly the per-extent
`write_data` requests, in iteration order. -/
theorem prepLoop_ok_of_clean (rs : Nat) :
    ∀ (l : List DiscardedEntry) (prev : Option DiscardedEntry),
      cleanFrom rs prev l → prepLoop rs prev l = .ok (l.map (writeOf rs)) := by
  intro l
  induction l with
  | nil => intro prev _; rfl
  | cons e rest ih =>
    intro prev hc
    obtain ⟨hnz, hbp, hrest⟩ := hc
    rw [prepLoop, if_neg hnz, if_neg (by simp [hbp]), ih (some e) hrest]
    rfl

/-- On a suffix that is not clean, the replay loop stops at the first
defect with the effect of `crit_err`, having issued only the requests for
the (strictly shorter) clean part before it. -/
theorem prepLoop_error_of_not_clean (rs : Nat) :
    ∀ (l : List DiscardedEntry) (prev : Option DiscardedEntry),
      ¬ cleanFrom rs prev l → ∃ k, k < l.length ∧
        prepLoop rs prev l = .error (critErr, (l.take k).map (writeOf rs)) := by
  intro l
  induction l with
  | nil => intro prev hc; exact absurd trivial hc
  | cons e rest ih =>
    intro prev hc
    by_cases hnz : e.count * rs = 0
    · exact ⟨0, by simp, by rw [prepLoop, if_pos hnz]; rfl⟩
    · by_cases hbp : badPair prev e = true
      · exact ⟨0, by simp, by rw [prepLoop, if_neg hnz, if_pos hbp]; rfl⟩
      · have hrest : ¬ cleanFrom rs (some e) rest := by
          intro h
          exact hc ⟨hnz, by simpa using hbp, h⟩
        obtain ⟨k, hk, heq⟩ := ih (some e) hrest
        refine ⟨k + 1, by simpa using hk, ?_⟩
        rw [prepLoop, if_neg hnz, if_neg hbp, heq]
        rfl

/-- A clean list has no zero-total extent. -/
theorem cleanFrom_nonzero (rs : Nat) :
    ∀ (l : List DiscardedEntry) (prev : Option DiscardedEntry),
      cleanFrom rs prev l → ∀ e ∈ l, e.count * rs ≠ 0 := by
  intro l
  induction l with
  | nil => intro prev _ e he; cases he
  | cons a rest ih =>
    intro prev hc e he
    obtain ⟨hnz, -, hrest⟩ := hc
    rcases List.mem_cons.mp he with rfl | hm
    · exact hnz
    · exact ih (some a) hrest e hm

/-- In a clean list, no consecutive pair is a bad pair. -/
theorem cleanFrom_no_badPair (rs : Nat) :
    ∀ (l1 : List DiscardedEntry) (prev : Option DiscardedEntry)
      (p e : DiscardedEntry) (l2 : List DiscardedEntry),
      cleanFrom rs prev (l1 ++ p :: e :: l2) → badPair (some p) e = false := by
  intro l1
  induction l1 with
  | nil =>
    intro prev p e l2 hc
    exact hc.2.2.2.1
  | cons a l1 ih =>
    intro prev p e l2 hc
    exact ih (some a) p e l2 hc.2.2

/-- C7: when the in-order extents contain a consecutive pair violating
the strict-gap invariant `prev.start + prev.count < next.start`, or an
extent of zero total bytes, `prepare_by_tree` detects it and calls
`crit_err`: the tracked tree is freed, the process exits with failure
status (1), and only the extents strictly before the detected defect have
been passed to `write_data` — the run is never continued or repaired. -/
theorem C7_corruption_is_fatal (rs : Nat) (l : List DiscardedEntry)
    (h : (∃ l1 p e l2, l = l1 ++ p :: e :: l2 ∧ e.start ≤ p.start + p.count) ∨
         (∃ e ∈ l, e.count * rs = 0)) :
    ∃ k ws, prepareByTree rs l = .error (critErr, ws) ∧
      ws = (l.take k).map (writeOf rs) ∧ k < l.length ∧
      critErr.treeFreed = true ∧ critErr.exitCode = 1 := by
  have hnc : ¬ cleanFrom rs none l := by
    rcases h with ⟨l1, p, e, l2, rfl, hbad⟩ | ⟨e, he, hz⟩
    · intro hc
      have hbp := cleanFrom_no_badPair rs l1 none p e l2 hc
      simp only [badPair, decide_eq_false_iff_not, not_le] at hbp
      omega
    · intro hc
      exact cleanFrom_nonzero rs l none hc e he hz
  obtain ⟨k, hk, heq⟩ := prepLoop_error_of_not_clean rs l none hnc
  exact ⟨k, _, heq, rfl, hk, rfl, rfl⟩

/-- C7 witness: the ledger `{0,2}, {1,1}` (overlapping pair) at record
size 4096 is detected at the second extent after the single request for
the first one. -/
theorem C7_corruption_is_fatal_witness :
    ∃ k ws, prepareByTree 4096 [⟨0, 2⟩, ⟨1, 1⟩] = .error (critErr, ws) ∧
      ws = (([⟨0, 2⟩, ⟨1, 1⟩] : List DiscardedEntry).take k).map (writeOf 4096) ∧
      k < ([⟨0, 2⟩, ⟨1, 1⟩] : List DiscardedEntry).length ∧
      critErr.treeFreed = true ∧ critErr.exitCode = 1 :=
  C7_corruption_is_fatal 4096 [⟨0, 2⟩, ⟨1, 1⟩]
    (Or.inl ⟨[], ⟨0, 2⟩, ⟨1, 1⟩, [], rfl, by decide⟩)

/-- The chain of strict gaps gives the pairwise strict-gap property. -/
theorem wf_pairwise {l : List DiscardedEntry} (h : Wf l) :
    l.Pairwise entGap :=
  List.chain'_iff_pairwise.mp h

/-- A well-formed ledger without zero-count extents passes the
consistency checks of `prepare_by_tree`. -/
theorem cleanFrom_of_wf (rs : Nat) :
    ∀ (l : List DiscardedEntry) (prev : Option DiscardedEntry),
      Wf l → (∀ e ∈ l, e.count * rs ≠ 0) →
      (∀ p, prev = some p → ∀ x ∈ l.head?, entGap p x) →
      cleanFrom rs prev l := by
  intro l
  induction l with
  | nil => intro prev _ _ _; trivial
  | cons e rest ih =>
    intro prev hwf hnz hprev
    obtain ⟨hhead, hrest⟩ := List.chain'_cons'.mp hwf
    refine ⟨hnz e (List.mem_cons_self e rest), ?_, ?_⟩
    · cases prev with
      | none => rfl
      | some p =>
        have hg := hprev p rfl e rfl
        simp only [badPair, decide_eq_false_iff_not, not_le]
        unfold entGap at hg
        omega
    · exact ih (some e) hrest (fun f hf => hnz f (List.mem_cons_of_mem e hf))
        (fun p hp x hx => by cases hp; exact hhead x hx)

/-- C6 counterexample: for the ledger with the single extent `{0,1}` at
record size 2048, `prepare_by_tree` requests a write of
`count · record_size = 2048` bytes, but `write_data` performs it as one
4096-byte entropy chunk (chunk count rounded half-up), so 4096 bytes hit
the device, not 2048. -/
theorem C6_write_not_exact_counterexample :
    prepareByTree 2048 [⟨0, 1⟩] = .ok [(0, 2048)] ∧
    writeDataBytes 2048 = 4096 ∧ ¬ (writeDataBytes 2048 = 2048) :=
  ⟨rfl, by decide, by decide⟩

/-- C6 amended: replay iterates the well-formed ledger in ascending start
order (strictly increasing byte offsets) and for each extent issues one
`write_data` request of `count · record_size` bytes at byte offset
`start · record_size`; `write_data` performs the request in `ENT_SIZE`
(4096)-byte chunks with the chunk count rounded half-up, which writes
exactly `count · record_size` bytes whenever `ENT_SIZE` divides the
record size; in particular for extents `{0,2}` and `{5,1}` at record
size 4096 exactly the two requests `(0, 8192)` and `(20480, 4096)` are
issued. -/
theorem C6_replay_requests (rs : Nat) (l : List DiscardedEntry)
    (hrs : 0 < rs) (hwf : Wf l) (hcnt : ∀ e ∈ l, 0 < e.count) :
    prepareByTree rs l = .ok (l.map (writeOf rs)) ∧
    (∀ e ∈ l, writeOf rs e = (e.start * rs, e.count * rs)) ∧
    ((l.map (writeOf rs)).map Prod.fst).Pairwise (· < ·) ∧
    (ENT_SIZE ∣ rs → ∀ e ∈ l, writeDataBytes (e.count * rs) = e.count * rs) ∧
    prepareByTree 4096 [⟨0, 2⟩, ⟨5, 1⟩] = .ok [(0, 8192), (20480, 4096)] := by
  refine ⟨?_, fun e _ => rfl, ?_, ?_, rfl⟩
  · exact prepLoop_ok_of_clean rs l none
      (cleanFrom_of_wf rs l none hwf
        (fun e he => by have := hcnt e he; positivity)
        (fun p hp => by cases hp))
  · rw [List.map_map, List.pairwise_map]
    refine (wf_pairwise hwf).imp fun hg => ?_
    simp only [Function.comp_apply, writeOf]
    unfold entGap at hg
    exact Nat.mul_lt_mul_of_pos_right (by omega) hrs
  · rintro ⟨m, rfl⟩ e _
    unfold writeDataBytes writeChunks
    have h1 : 2 * (e.count * (ENT_SIZE * m)) + ENT_SIZE =
        2 * ENT_SIZE * (e.count * m) + ENT_SIZE := by ring
    rw [h1, Nat.mul_add_div (by decide), Nat.div_eq_of_lt (by decide),
      Nat.add_zero]
    ring

/-- C6 witness at the ledger `{0,2}, {5,1}` and record size 4096. -/
theorem C6_replay_requests_witness :
    prepareByTree 4096 [⟨0, 2⟩, ⟨5, 1⟩] =
      .ok (([⟨0, 2⟩, ⟨5, 1⟩] : List DiscardedEntry).map (writeOf 4096)) ∧
    (∀ e ∈ ([⟨0, 2⟩, ⟨5, 1⟩] : List DiscardedEntry),
      writeOf 4096 e = (e.start * 4096, e.count * 4096)) ∧
    ((([⟨0, 2⟩, ⟨5, 1⟩] : List DiscardedEntry).map
      (writeOf 4096)).map Prod.fst).Pairwise (· < ·) ∧
    (ENT_SIZE ∣ 4096 → ∀ e ∈ ([⟨0, 2⟩, ⟨5, 1⟩] : List DiscardedEntry),
      writeDataBytes (e.count * 4096) = e.count * 4096) ∧
    prepareByTree 4096 [⟨0, 2⟩, ⟨5, 1⟩] = .ok [(0, 8192), (20480, 4096)] :=
  C6_replay_requests 4096 [⟨0, 2⟩, ⟨5, 1⟩] (by decide) (by decide)
    (by decide)

/-- Membership in the covered set means membership in some extent. -/
theorem mem_coveredF {x : Nat} : ∀ {l : List DiscardedEntry},
    x ∈ coveredF l ↔ ∃ e ∈ l, x ∈ extentF e := by
  intro l
  induction l with
  | nil => simp [coveredF]
  | cons e rest ih => simp [coveredF, ih]

/-- On a well-formed ledger the extents are disjoint, so the covered-set
cardinality is the sum of the counts. -/
theorem card_coveredF : ∀ {l : List DiscardedEntry}, Wf l →
    (coveredF l).card = totalCount l := by
  intro l
  induction l with
  | nil => intro _; rfl
  | cons e rest ih =>
    intro hwf
    have hp := wf_pairwise hwf
    have hdisj : Disjoint (extentF e) (coveredF rest) := by
      rw [Finset.disjoint_left]
      intro x hx hxr
      obtain ⟨hx1, hx2⟩ := Finset.mem_Ico.mp hx
      obtain ⟨f, hf, hxf⟩ := mem_coveredF.mp hxr
      obtain ⟨hf1, -⟩ := Finset.mem_Ico.mp hxf
      have hg : entGap e f := (List.pairwise_cons.mp hp).1 f hf
      unfold entGap at hg
      omega
    show (extentF e ∪ coveredF rest).card = totalCount (e :: rest)
    rw [Finset.card_union_of_disjoint hdisj,
      ih (List.chain'_cons'.mp hwf).2]
    show (Finset.Ico e.start (e.start + e.count)).card + totalCount rest =
      e.count + totalCount rest
    rw [Nat.card_Ico]
    omega

/-- Behaviour of the right-merge applied to an entry all of whose
successors start at or past its end: the result is well formed, covers
the union, preserves the total count, and introduces no start below the
entry's. -/
theorem mergeRight_spec (new : DiscardedEntry) (tail : List DiscardedEntry)
    (hwf : Wf tail)
    (hle : ∀ f ∈ tail, new.start + new.count ≤ f.start) :
    Wf (mergeRight new tail) ∧
    coveredF (mergeRight new tail) = extentF new ∪ coveredF tail ∧
    totalCount (mergeRight new tail) = new.count + totalCount tail ∧
    (∀ g ∈ mergeRight new tail, g.start = new.start ∨ g ∈ tail) := by
  cases tail with
  | nil =>
    refine ⟨List.chain'_singleton new, rfl, rfl, ?_⟩
    intro g hg
    rcases List.mem_singleton.mp hg with rfl
    exact Or.inl rfl
  | cons f rest =>
    have hff : f ∈ f :: rest := List.mem_cons_self f rest
    have hfgap : ∀ x ∈ rest, entGap f x :=
      (List.pairwise_cons.mp (wf_pairwise hwf)).1
    by_cases hadj : f.start = new.start + new.count
    · rw [mergeRight, if_pos hadj]
      refine ⟨?_, ?_, ?_, ?_⟩
      · refine List.chain'_cons'.mpr ⟨?_, (List.chain'_cons'.mp hwf).2⟩
        intro x hx
        have hgx := (List.chain'_cons'.mp hwf).1 x hx
        unfold entGap at hgx ⊢
        simp only at hgx ⊢
        omega
      · show extentF ⟨new.start, new.count + f.count⟩ ∪ coveredF rest =
          extentF new ∪ (extentF f ∪ coveredF rest)
        have hsplit : extentF ⟨new.start, new.count + f.count⟩ =
            extentF new ∪ extentF f := by
          unfold extentF
          simp only
          have h1 : new.start + (new.count + f.count) =
              f.start + f.count := by omega
          rw [h1, hadj]
          exact (Finset.Ico_union_Ico_eq_Ico (Nat.le_add_right _ _)
            (by omega)).symm
        rw [hsplit, Finset.union_assoc]
      · show new.count + f.count + totalCount rest =
          new.count + (f.count + totalCount rest)
        omega
      · intro g hg
        rcases List.mem_cons.mp hg with rfl | hgr
        · exact Or.inl rfl
        · exact Or.inr (List.mem_cons_of_mem f hgr)
    · rw [mergeRight, if_neg hadj]
      refine ⟨?_, rfl, rfl, ?_⟩
      · refine List.chain'_cons.mpr ⟨?_, hwf⟩
        have := hle f hff
        unfold entGap
        omega
      · intro g hg
        rcases List.mem_cons.mp hg with rfl | hgr
        · exact Or.inl rfl
        · exact Or.inr hgr

/-- A successful scan of `guess_next_block` preserves the ledger
invariant, covers exactly one new unit — the returned block — and grows
the total count by one.  `L` is a lower bound on the drawn block and all
starts, threaded through the induction. -/
theorem guessScan_ok_spec (N : Nat) :
    ∀ (l : List DiscardedEntry) (block L : Nat)
      (l2 : List DiscardedEntry) (b : Nat),
      Wf l → L ≤ block → (∀ f ∈ l, L ≤ f.start) →
      guessScan N block l = .ok l2 b →
      Wf l2 ∧ coveredF l2 = insert b (coveredF l) ∧ b ∉ coveredF l ∧
      totalCount l2 = totalCount l + 1 ∧ L ≤ b ∧
      (∀ f ∈ l2, L ≤ f.start) := by
  intro l
  induction l with
  | nil =>
    intro block L l2 b _ hLb _ hok
    simp only [guessScan, ScanResult.ok.injEq] at hok
    obtain ⟨rfl, rfl⟩ := hok
    refine ⟨List.chain'_singleton _, ?_, Finset.not_mem_empty block, rfl, hLb, ?_⟩
    · show extentF ⟨block, 1⟩ ∪ ∅ = insert block ∅
      rw [Finset.union_empty]
      have hsing : extentF ⟨block, 1⟩ = {block} := Nat.Ico_succ_singleton block
      rw [hsing]
      rfl
    · intro f hf
      rcases List.mem_singleton.mp hf with rfl
      exact hLb
  | cons e rest ih =>
    intro block L l2 b hwf hLb hLl hok
    have hrest_wf : Wf rest := (List.chain'_cons'.mp hwf).2
    have hegap : ∀ f ∈ rest, entGap e f :=
      (List.pairwise_cons.mp (wf_pairwise hwf)).1
    have hLe : L ≤ e.start := hLl e (List.mem_cons_self e rest)
    simp only [guessScan] at hok
    split_ifs at hok with h1 h2 h3
    · -- block < e.start : a fresh unit extent is inserted before e
      simp only [ScanResult.ok.injEq] at hok
      obtain ⟨rfl, rfl⟩ := hok
      have hle : ∀ f ∈ e :: rest, block + 1 ≤ f.start := by
        intro f hf
        rcases List.mem_cons.mp hf with rfl | hfr
        · omega
        · have := hegap f hfr; unfold entGap at this; omega
      obtain ⟨hW, hC, hT, hM⟩ := mergeRight_spec ⟨block, 1⟩ (e :: rest) hwf hle
      have hnot : block ∉ coveredF (e :: rest) := by
        intro hmem
        obtain ⟨f, hf, hxf⟩ := mem_coveredF.mp hmem
        obtain ⟨hfx1, hfx2⟩ := Finset.mem_Ico.mp hxf
        rcases List.mem_cons.mp hf with rfl | hfr
        · omega
        · have := hegap f hfr; unfold entGap at this; omega
      refine ⟨hW, ?_, hnot, ?_, hLb, ?_⟩
      · rw [hC, Finset.insert_eq]
        have hsing : extentF ⟨block, 1⟩ = {block} := Nat.Ico_succ_singleton block
        rw [hsing]
      · rw [hT]
        show 1 + totalCount (e :: rest) = totalCount (e :: rest) + 1
        omega
      · intro g hg
        rcases hM g hg with hs | hmem
        · have hs2 : g.start = block := hs
          omega
        · exact hLl g hmem
    · -- e.start + e.count < block : descend into the right part
      cases hscan : guessScan N block rest with
      | restart => rw [hscan] at hok; cases hok
      | ok rest2 b2 =>
        rw [hscan] at hok
        simp only [ScanResult.ok.injEq] at hok
        obtain ⟨rfl, rfl⟩ := hok
        obtain ⟨hW, hC, hBn, hT, hLb2, hLl2⟩ :=
          ih block (e.start + e.count + 1) rest2 b2 hrest_wf (by omega)
            (fun f hf => by have := hegap f hf; unfold entGap at this; omega)
            hscan
        refine ⟨?_, ?_, ?_, ?_, ?_, ?_⟩
        · refine List.chain'_cons'.mpr ⟨?_, hW⟩
          intro x hx
          have := hLl2 x (List.mem_of_mem_head? hx)
          unfold entGap
          omega
        · show extentF e ∪ coveredF rest2 = insert b2 (extentF e ∪ coveredF rest)
          rw [hC, Finset.union_insert]
        · intro hmem
          rcases Finset.mem_union.mp hmem with hx | hx
          · obtain ⟨-, hx2⟩ := Finset.mem_Ico.mp hx
            omega
          · exact hBn hx
        · show e.count + totalCount rest2 = e.count + totalCount rest + 1
          omega
        · omega
        · intro g hg
          rcases List.mem_cons.mp hg with rfl | hgr
          · exact hLe
          · have := hLl2 g hgr; omega
    · -- matching entry: extend by one unit and merge to the right
      -- the restart case (N < end) yields no ok result and was discharged
      -- by the if-splitting
      simp only [ScanResult.ok.injEq] at hok
      obtain ⟨rfl, rfl⟩ := hok
      have hle : ∀ f ∈ rest, e.start + (e.count + 1) ≤ f.start := by
        intro f hf
        have := hegap f hf; unfold entGap at this; omega
      obtain ⟨hW, hC, hT, hM⟩ :=
        mergeRight_spec ⟨e.start, e.count + 1⟩ rest hrest_wf hle
      have hext : extentF ⟨e.start, e.count + 1⟩ =
          insert (e.start + e.count) (extentF e) := by
        unfold extentF
        simp only
        have h4 : e.start + (e.count + 1) = e.start + e.count + 1 := by omega
        rw [h4]
        exact Nat.Ico_succ_right_eq_insert_Ico (Nat.le_add_right _ _)
      have hnot : e.start + e.count ∉ coveredF (e :: rest) := by
        intro hmem
        obtain ⟨f, hf, hxf⟩ := mem_coveredF.mp hmem
        obtain ⟨hfx1, hfx2⟩ := Finset.mem_Ico.mp hxf
        rcases List.mem_cons.mp hf with rfl | hfr
        · omega
        · have := hegap f hfr; unfold entGap at this; omega
      refine ⟨hW, ?_, hnot, ?_, by omega, ?_⟩
      · rw [hC, hext, Finset.insert_union]
        rfl
      · rw [hT]
        show e.count + 1 + totalCount rest = totalCount (e :: rest) + 1
        show e.count + 1 + totalCount rest = e.count + totalCount rest + 1
        omega
      · intro g hg
        rcases hM g hg with hs | hmem
        · simp only at hs
          omega
        · have := hegap g hmem; unfold entGap at this; omega

/-- A successful `guess_next_block` call on a well-formed ledger keeps it
well formed, covers exactly the returned block anew, and grows the total
count by one. -/
theorem guessNextBlock_spec (N block : Nat) (l l2 : List DiscardedEntry)
    (b : Nat) (hwf : Wf l) (h : guessNextBlock N block l = some (l2, b)) :
    Wf l2 ∧ coveredF l2 = insert b (coveredF l) ∧ b ∉ coveredF l ∧
    totalCount l2 = totalCount l + 1 := by
  unfold guessNextBlock at h
  cases h1 : guessScan N block l with
  | ok l3 b3 =>
    rw [h1] at h
    simp only [Option.some.injEq, Prod.mk.injEq] at h
    obtain ⟨rfl, rfl⟩ := h
    obtain ⟨hW, hC, hB, hT, -, -⟩ := guessScan_ok_spec N l block 0 l3 b3 hwf
      (Nat.zero_le _) (fun f _ => Nat.zero_le _) h1
    exact ⟨hW, hC, hB, hT⟩
  | restart =>
    rw [h1] at h
    cases h2 : guessScan N 0 l with
    | ok l3 b3 =>
      rw [h2] at h
      simp only [Option.some.injEq, Prod.mk.injEq] at h
      obtain ⟨rfl, rfl⟩ := h
      obtain ⟨hW, hC, hB, hT, -, -⟩ := guessScan_ok_spec N l 0 0 l3 b3 hwf
        (Nat.le_refl 0) (fun f _ => Nat.zero_le _) h2
      exact ⟨hW, hC, hB, hT⟩
    | restart => rw [h2] at h; cases h

/-- Iterating the selector from any well-formed ledger: every successful
run keeps the ledger well formed, the covered set grows by exactly the
returned blocks, the total count by their number, and the returned
blocks are pairwise distinct and fresh. -/
theorem runSelector_spec (N : Nat) :
    ∀ (draws : List Nat) (l0 l : List DiscardedEntry) (bs : List Nat),
      Wf l0 → runSelector N draws l0 = some (l, bs) →
      Wf l ∧ coveredF l = coveredF l0 ∪ bs.toFinset ∧
      totalCount l = totalCount l0 + bs.length ∧
      bs.Nodup ∧ (∀ x ∈ bs, x ∉ coveredF l0) := by
  intro draws
  induction draws with
  | nil =>
    intro l0 l bs hwf h
    simp only [runSelector, Option.some.injEq, Prod.mk.injEq] at h
    obtain ⟨rfl, rfl⟩ := h
    refine ⟨hwf, by simp, by simp, List.nodup_nil, by simp⟩
  | cons d ds ih =>
    intro l0 l bs hwf h
    simp only [runSelector] at h
    split at h
    next => cases h
    next l1 b h1 =>
      split at h
      next => cases h
      next lf bs1 h2 =>
        simp only [Option.some.injEq, Prod.mk.injEq] at h
        obtain ⟨rfl, rfl⟩ := h
        obtain ⟨hW1, hC1, hB1, hT1⟩ := guessNextBlock_spec N d l0 l1 b hwf h1
        obtain ⟨hW, hC, hT, hN, hF⟩ := ih l1 lf bs1 hW1 h2
        refine ⟨hW, ?_, ?_, ?_, ?_⟩
        · rw [hC, hC1, List.toFinset_cons, Finset.insert_union,
            Finset.union_insert]
        · rw [hT, hT1, List.length_cons]
          omega
        · refine List.nodup_cons.mpr ⟨?_, hN⟩
          intro hmem
          exact hF b hmem (hC1 ▸ Finset.mem_insert_self b (coveredF l0))
        · intro x hx
          rcases List.mem_cons.mp hx with rfl | hxr
          · exact hB1
          · intro hx0
            exact hF x hxr (hC1 ▸ Finset.mem_insert_of_mem hx0)

/-- C1: after every successful run of selector insertions starting from
the empty ledger, in-order iteration yields extents with pairwise strict
gaps (non-adjacent, non-overlapping) in strictly ascending start order,
and the sum of the counts equals the number of distinct record units
ever covered: the covered set is exactly the set of blocks handed out,
the count equals its cardinality, and also equals the number of calls,
so no unit was ever counted twice by a merge. -/
theorem C1_ledger_invariant (N : Nat) (draws : List Nat)
    (l : List DiscardedEntry) (bs : List Nat)
    (h : runSelector N draws [] = some (l, bs)) :
    l.Pairwise entGap ∧
    l.Pairwise (fun e f => e.start < f.start) ∧
    coveredF l = bs.toFinset ∧
    totalCount l = (coveredF l).card ∧
    totalCount l = bs.length := by
  obtain ⟨hW, hC, hT, hN, -⟩ :=
    runSelector_spec N draws [] l bs List.chain'_nil h
  have hC2 : coveredF l = bs.toFinset := by
    rw [hC]
    exact Finset.empty_union _
  refine ⟨wf_pairwise hW, ?_, hC2, (card_coveredF hW).symm,
    by rw [hT]; simp [totalCount]⟩
  refine (wf_pairwise hW).imp fun hg => ?_
  unfold entGap at hg
  omega

/-- C1 witness: the draws 3, 4, 0, 3 on a ten-block device produce the
ledger `{0,1}, {3,3}` with returned blocks 3, 4, 0, 5. -/
theorem C1_ledger_invariant_witness :
    ([⟨0, 1⟩, ⟨3, 3⟩] : List DiscardedEntry).Pairwise entGap ∧
    ([⟨0, 1⟩, ⟨3, 3⟩] : List DiscardedEntry).Pairwise
      (fun e f => e.start < f.start) ∧
    coveredF [⟨0, 1⟩, ⟨3, 3⟩] = ([3, 4, 0, 5] : List Nat).toFinset ∧
    totalCount [⟨0, 1⟩, ⟨3, 3⟩] = (coveredF [⟨0, 1⟩, ⟨3, 3⟩]).card ∧
    totalCount [⟨0, 1⟩, ⟨3, 3⟩] = ([3, 4, 0, 5] : List Nat).length :=
  C1_ledger_invariant 10 [3, 4, 0, 3] [⟨0, 1⟩, ⟨3, 3⟩] [3, 4, 0, 5]
    (by decide)
